import Mathlib

/-!
Verification of the csv_editor core (src/main.rs): the tabular data model
(Cell / Row / Table), the loader, the layout-width functions and the
sortable-view adapter, shallowly embedded in Lean. Text values are lists of
characters; fallible or panicking operations return `Option`; the file
contents handed to the loader are modelled as the list of lines the buffered
reader produces (line terminators already stripped, as `BufRead::lines` does;
the header line is trimmed per field by `from_line` either way).
-/

namespace CsvEditor

/-- A text value, modelled as its list of characters. -/
abbrev Str := List Char

/-- Whitespace test used by trimming (the whitespace characters that can occur
in a delimited text line: space, tab, newline, carriage return). -/
def isWs (c : Char) : Bool := c = ' ' || c = '\t' || c = '\n' || c = '\r'

/-- `str::trim`: remove leading and trailing whitespace. -/
def trimStr (s : Str) : Str :=
  ((s.dropWhile isWs).reverse.dropWhile isWs).reverse

/-- `s.split(',')`: split on every comma; k delimiters give k+1 fields. -/
def splitComma : Str → List Str
  | [] => [[]]
  | c :: cs =>
    if c = ',' then [] :: splitComma cs
    else
      match splitComma cs with
      | [] => [[c]]
      | f :: rest => (c :: f) :: rest

/-- `struct Cell { value: String }` -/
structure Cell where
  value : Str
deriving DecidableEq

/-- `Cell::from_string`: trim the field and store it. -/
def Cell.from_string (s : Str) : Cell := ⟨trimStr s⟩

/-- `Cell::len` -/
def Cell.len (cell : Cell) : Nat := cell.value.length

/-- `Cell::set_value`: replace the stored text (no trimming). -/
def Cell.set_value (_cell : Cell) (s : Str) : Cell := ⟨s⟩

/-- `struct Row { cells: Vec<Cell>, rowid: i64 }` -/
structure Row where
  cells : List Cell
  rowid : Int
deriving DecidableEq

/-- `Row::num_cols` -/
def Row.num_cols (r : Row) : Nat := r.cells.length

/-- `Row::cell_width`: the cell's length, or 0 when the row is short. -/
def Row.cell_width (r : Row) (c : Nat) : Nat :=
  match r.cells[c]? with
  | some cell => cell.value.length
  | none => 0

/-- `Row::try_get`: the cell's text, or the `missing` text when absent. -/
def Row.try_get (r : Row) (c : Nat) (missing : Str) : Str :=
  match r.cells[c]? with
  | some cell => cell.value
  | none => missing

/-- `Row::from_line`: split on commas, trim each field, rowid sentinel -1. -/
def Row.from_line (s : Str) : Row :=
  { cells := (splitComma s).map Cell.from_string, rowid := -1 }

/-- `struct Table { header: Row, rows: Vec<Row>, num_cols: usize }` -/
structure Table where
  header : Row
  rows : List Row
  num_cols : Nat
deriving DecidableEq

/-- `Table::add_line`: raise `num_cols` to the new row's width, assign the next
sequential rowid and append. -/
def Table.add_line (t : Table) (row : Row) : Table :=
  { t with
    num_cols := max t.num_cols row.num_cols,
    rows := t.rows ++ [{ row with rowid := (t.rows.length : Int) }] }

/-- The synthesized header label `col:<c>`. -/
def colLabel (c : Nat) : Str := ("col:" ++ toString c).data

/-- `Table::fix_header_names`: replace empty header cells with `col:<c>`,
append `col:<c>` cells for `c` in `header.num_cols()..num_cols`, then
`assert_eq!(header.num_cols(), num_cols)`; `none` models the assert panicking. -/
def Table.fix_header_names (t : Table) : Option Table :=
  let fixed : List Cell :=
    t.header.cells.enum.map
      (fun p => if p.2.len = 0 then p.2.set_value (colLabel p.1) else p.2)
  let padded : List Cell :=
    fixed ++ (List.range' t.header.num_cols (t.num_cols - t.header.num_cols)).map
      (fun c => Cell.from_string (colLabel c))
  if padded.length = t.num_cols then
    some { t with header := { t.header with cells := padded } }
  else
    none

/-- `Table::col_width`: `rows.iter().map(|r| r.cell_width(c)).max().unwrap_or(0)`. -/
def Table.col_width (t : Table) (c : Nat) : Nat :=
  match (t.rows.map (fun r => r.cell_width c)).max? with
  | some w => w
  | none => 0

/-- `Table::col_width2`: `col_width(c).max(cell_minwidth) + cell_padding`,
maxed with `header.cells[c].len() + header_padding`; the direct index into the
header is a panic when out of range, modelled as `none`. -/
def Table.col_width2 (t : Table) (c cell_minwidth cell_padding header_padding : Nat) :
    Option Nat :=
  match t.header.cells[c]? with
  | some cell =>
    some (max (max (t.col_width c) cell_minwidth + cell_padding)
      (cell.len + header_padding))
  | none => none

/-- `Table::sum_colwidth2`: sum of `col_width2` over `0..num_cols`; a panic in
any summand is a panic of the whole. -/
def Table.sum_colwidth2 (t : Table) (min_cellwidth cell_padding header_padding : Nat) :
    Option Nat :=
  ((List.range t.num_cols).mapM
    (fun c => t.col_width2 c min_cellwidth cell_padding header_padding)).map
    (fun ws => ws.sum)

/-- The body of `from_filepath`'s read loop for one line: a non-empty line is
parsed and appended via `add_line`, an empty line is skipped. -/
def loadStep (t : Table) (ln : Str) : Table :=
  if ln.length > 0 then t.add_line (Row.from_line ln) else t

/-- The content-processing part of `Table::from_filepath`: the first line is
the header, every later non-empty line becomes a data row, then
`fix_header_names` runs (whose assert can panic: `none`). -/
def Table.load_lines (lines : List Str) : Option Table :=
  let headerLine : Str := match lines with | [] => [] | h :: _ => h
  let rest : List Str := match lines with | [] => [] | _ :: r => r
  let t0 : Table := { header := Row.from_line headerLine, rows := [], num_cols := 0 }
  (rest.foldl loadStep t0).fix_header_names

/-- `enum Error { FileError { filepath, why }, ExitCode(i32) }` -/
inductive Error where
  | FileError (filepath : Str) (why : Str)
  | ExitCode (code : Int)
deriving DecidableEq

/-- `Error::get_message`: `could not open '<path>': <why>` for a FileError. -/
def Error.get_message : Error → Option Str
  | .FileError fp why => some ("could not open '".data ++ fp ++ "': ".data ++ why)
  | .ExitCode _ => none

/-- Outcome of `Table::from_filepath`: a table, a returned `Err`, or a panic. -/
inductive LoadResult where
  | ok (t : Table)
  | err (e : Error)
  | panicked
deriving DecidableEq

/-- `Table::from_filepath`, with the file system as an oracle from paths to
either an open error (`why`) or the file's lines: an open failure returns the
FileError; otherwise the content is processed by `load_lines`. -/
def Table.from_filepath (fs : Str → Except Str (List Str)) (filepath : Str) :
    LoadResult :=
  match fs filepath with
  | .error why => .err (.FileError filepath why)
  | .ok lines =>
    match Table.load_lines lines with
    | some t => .ok t
    | none => .panicked

/-- `enum BasicColumn { RowId, ColumnPos { c } }` -/
inductive BasicColumn where
  | RowId
  | ColumnPos (c : Nat)
deriving DecidableEq

/-- `i64::cmp` -/
def intCompare (a b : Int) : Ordering :=
  if a < b then .lt else if a = b then .eq else .gt

/-- `String::cmp`: lexicographic comparison. -/
def strCompare : Str → Str → Ordering
  | [], [] => .eq
  | [], _ :: _ => .lt
  | _ :: _, [] => .gt
  | a :: as, b :: bs =>
    if a < b then .lt else if b < a then .gt else strCompare as bs

/-- `TableViewItem::to_column for Row`: the rowid as decimal text, or the
cell's text with `"<NULL>"` for a missing cell. -/
def Row.to_column (r : Row) (column : BasicColumn) : Str :=
  match column with
  | .RowId => (toString r.rowid).data
  | .ColumnPos c => r.try_get c ("<NULL>".data)

/-- `TableViewItem::cmp for Row`: rowid order, or the raw cell texts compared
via a direct index `cells[c]` into both rows — `none` models the panic when
either row has no cell at `c`. -/
def Row.cmp (r other : Row) (column : BasicColumn) : Option Ordering :=
  match column with
  | .RowId => some (intCompare r.rowid other.rowid)
  | .ColumnPos c =>
    match r.cells[c]?, other.cells[c]? with
    | some x, some y => some (strCompare x.value y.value)
    | _, _ => none

/-- A junk table used only as the default of `Option.getD` on loads that are
proved to succeed. -/
def tDefault : Table := { header := { cells := [], rowid := -1 }, rows := [], num_cols := 0 }

/-- The table loaded from the file `a,b\n1,2\n` (used as a concrete witness). -/
def tEx : Table := (Table.load_lines ["a,b".data, "1,2".data]).getD tDefault

/-- The table loaded from the file `a,b\n1,2\n3\n` of spec Scenario A
(its second data row is short). -/
def tA : Table := (Table.load_lines ["a,b".data, "1,2".data, "3".data]).getD tDefault

/-! ## Trimming and splitting -/

theorem head_dropWhile_not (p : Char → Bool) :
    ∀ (l : Str) (a : Char), (l.dropWhile p).head? = some a → p a = false := by
  intro l
  induction l with
  | nil => intro a h; simp [List.dropWhile] at h
  | cons c cs ih =>
    intro a h
    rw [List.dropWhile_cons] at h
    by_cases hc : p c
    · rw [if_pos hc] at h; exact ih a h
    · rw [if_neg hc] at h
      simp only [List.head?_cons, Option.some.injEq] at h
      rw [← h]
      exact Bool.of_not_eq_true hc

theorem dropWhile_of_head (p : Char → Bool) (l : Str)
    (h : ∀ a, l.head? = some a → p a = false) : l.dropWhile p = l := by
  cases l with
  | nil => rfl
  | cons c cs =>
    have hc := h c rfl
    rw [List.dropWhile_cons, if_neg (by simp [hc])]

theorem dropWhile_idem (p : Char → Bool) (l : Str) :
    (l.dropWhile p).dropWhile p = l.dropWhile p :=
  dropWhile_of_head p _ (fun a ha => head_dropWhile_not p l a ha)

theorem exists_append_dropWhile (p : Char → Bool) :
    ∀ l : Str, ∃ u : Str, u ++ l.dropWhile p = l := by
  intro l
  induction l with
  | nil => exact ⟨[], rfl⟩
  | cons c cs ih =>
    rw [List.dropWhile_cons]
    by_cases hc : p c
    · rw [if_pos hc]
      obtain ⟨u, hu⟩ := ih
      exact ⟨c :: u, by simp [hu]⟩
    · rw [if_neg hc]
      exact ⟨[], rfl⟩

theorem trimStr_head (s : Str) (a : Char) (h : (trimStr s).head? = some a) :
    isWs a = false := by
  obtain ⟨u, hu⟩ := exists_append_dropWhile isWs (s.dropWhile isWs).reverse
  have hs : s.dropWhile isWs = (trimStr s) ++ u.reverse := by
    have := congrArg List.reverse hu
    simpa [List.reverse_append, trimStr] using this.symm
  have hhead : (s.dropWhile isWs).head? = some a := by
    rw [hs]
    cases ht : trimStr s with
    | nil => rw [ht] at h; simp at h
    | cons x xs =>
      rw [ht] at h
      simp only [List.head?_cons, Option.some.injEq] at h
      simp [h]
  exact head_dropWhile_not isWs s a hhead

theorem trimStr_idem (s : Str) : trimStr (trimStr s) = trimStr s := by
  have h1 : (trimStr s).dropWhile isWs = trimStr s :=
    dropWhile_of_head _ _ (fun a ha => trimStr_head s a ha)
  show (((trimStr s).dropWhile isWs).reverse.dropWhile isWs).reverse = trimStr s
  rw [h1]
  show ((trimStr s).reverse.dropWhile isWs).reverse = trimStr s
  unfold trimStr
  rw [List.reverse_reverse, dropWhile_idem]

theorem splitComma_length (s : Str) : (splitComma s).length = s.count ',' + 1 := by
  induction s with
  | nil => simp [splitComma]
  | cons c cs ih =>
    rw [splitComma]
    by_cases hc : c = ','
    · rw [if_pos hc]
      subst hc
      simp [List.count_cons, ih]
    · rw [if_neg hc]
      cases h : splitComma cs with
      | nil => rw [h] at ih; simp at ih
      | cons f rest =>
        rw [h] at ih
        simp only [List.length_cons] at ih ⊢
        rw [List.count_cons]
        simp [hc, ih]

/-- C4: for every input line with k commas, `from_line` yields a Row of
exactly k+1 cells, each cell's value already trimmed of surrounding
whitespace; a line with zero delimiters yields exactly one cell, and the
empty line yields one cell holding the empty string. The operation is a
total function of the text, so it cannot fail. -/
theorem c4_from_line (s : Str) :
    (Row.from_line s).cells.length = s.count ',' + 1
    ∧ (∀ cell ∈ (Row.from_line s).cells, trimStr cell.value = cell.value)
    ∧ (s.count ',' = 0 → (Row.from_line s).cells.length = 1)
    ∧ (Row.from_line []).cells = [{ value := [] }] := by
  refine ⟨?_, ?_, ?_, ?_⟩
  · simp [Row.from_line, splitComma_length s]
  · intro cell hc
    simp only [Row.from_line, List.mem_map] at hc
    obtain ⟨f, _, rfl⟩ := hc
    simp [Cell.from_string, trimStr_idem]
  · intro h
    simp [Row.from_line, splitComma_length s, h]
  · rfl

/-! ## Loader invariants -/

theorem fix_header_names_some {t u : Table} (h : t.fix_header_names = some u) :
    u.header.cells.length = u.num_cols ∧ u.num_cols = t.num_cols ∧ u.rows = t.rows := by
  simp only [Table.fix_header_names] at h
  split at h
  · cases h
    refine ⟨?_, rfl, rfl⟩
    assumption
  · cases h

theorem foldl_loadStep_rowids (lines : List Str) :
    ∀ t0 : Table, (∀ (i : Nat) (r : Row), t0.rows[i]? = some r → r.rowid = (i : Int)) →
      ∀ (i : Nat) (r : Row),
        (lines.foldl loadStep t0).rows[i]? = some r → r.rowid = (i : Int) := by
  induction lines with
  | nil => intro t0 h; simpa using h
  | cons ln rest ih =>
    intro t0 h0
    rw [List.foldl_cons]
    apply ih
    intro i r hir
    unfold loadStep at hir
    split at hir
    · unfold Table.add_line at hir
      simp only at hir
      rcases Nat.lt_or_ge i t0.rows.length with hlt | hge
      · rw [List.getElem?_append_left hlt] at hir
        exact h0 i r hir
      · rw [List.getElem?_append_right hge] at hir
        cases hd : i - t0.rows.length with
        | zero =>
          rw [hd] at hir
          simp only [List.getElem?_cons_zero, Option.some.injEq] at hir
          have hi : i = t0.rows.length := by omega
          rw [← hir, hi]
        | succ k =>
          rw [hd] at hir
          simp at hir
    · exact h0 i r hir

theorem load_lines_rowids {lines : List Str} {t : Table}
    (h : Table.load_lines lines = some t) :
    ∀ (i : Nat) (r : Row), t.rows[i]? = some r → r.rowid = (i : Int) := by
  simp only [Table.load_lines] at h
  have hrows := (fix_header_names_some h).2.2
  rw [hrows]
  apply foldl_loadStep_rowids
  intro i r hir
  simp at hir

theorem load_lines_header_len {lines : List Str} {t : Table}
    (h : Table.load_lines lines = some t) :
    t.header.cells.length = t.num_cols := by
  simp only [Table.load_lines] at h
  exact (fix_header_names_some h).1

/-! ## The claims settled by evaluating the code at concrete inputs -/

/-- C1 (code bug): `num_cols` is claimed to be the running maximum of column
counts across the header and all data rows, so that a file holding only blank
lines after the header loads with zero data rows and `num_cols` equal to the
header's column count. The code starts `num_cols` at 0 and raises it only in
`add_line`, never from the header: on the file `a,b\n\n\n` (header of two
columns, then blank lines) the load reaches `fix_header_names` with
`num_cols = 0` and its `assert_eq` panics (modelled as `none`) instead of
producing the claimed Table. -/
theorem c1_scenarioE_panics :
    (Row.from_line ("a,b".data)).num_cols = 2
    ∧ Table.load_lines ["a,b".data, "".data, "".data] = none :=
  ⟨rfl, rfl⟩

/-- C2 (code bug): comparing two rows on a data column where one row has no
cell is claimed not to panic (the missing side compared as `<NULL>`). The
code's `cmp` indexes `cells[c]` of both rows directly: on the table loaded
from `a,b\n1,2\n3\n` (spec Scenario A), comparing row 1 (the short row `3`)
with row 0 on data column 1 hits the missing cell and panics (`none`). -/
theorem c2_cmp_short_row_panics :
    (do
      let t ← Table.load_lines ["a,b".data, "1,2".data, "3".data]
      let r0 ← t.rows[0]?
      let r1 ← t.rows[1]?
      pure (r1.cmp r0 (BasicColumn.ColumnPos 1))) = some none :=
  rfl

/-- C3 (code bug): after `fix_header_names` on a fully loaded Table the header
is claimed to have exactly `num_cols` cells, short headers being padded with
`col:<i>` labels. Because the loader never counts the header into `num_cols`,
the table loaded from `a,b\n1\n` reaches normalization with a header of 2
cells and `num_cols = 1`; `fix_header_names` appends nothing, leaves the
header longer than `num_cols`, and its own `assert_eq` panics (`none`). -/
theorem c3_fix_header_names_panics :
    (({ header := Row.from_line ("a,b".data), rows := [], num_cols := 0 } : Table).add_line
        (Row.from_line ("1".data))).fix_header_names = none
    ∧ Table.load_lines ["a,b".data, "1".data] = none :=
  ⟨rfl, rfl⟩

/-! ## Width computation -/

theorem col_width_eq_foldl (t : Table) (c : Nat) :
    t.col_width c = (t.rows.map (fun r => r.cell_width c)).foldl max 0 := by
  unfold Table.col_width
  cases h : t.rows.map (fun r => r.cell_width c) with
  | nil => simp [List.max?]
  | cons x xs =>
    simp only [List.max?, List.foldl_cons]
    rw [Nat.zero_max]

theorem foldl_max_init (l : List Nat) : ∀ a : Nat, l.foldl max a = max a (l.foldl max 0) := by
  induction l with
  | nil => intro a; simp
  | cons x xs ih =>
    intro a
    rw [List.foldl_cons, List.foldl_cons, ih (max a x), ih (max 0 x)]
    omega

theorem le_foldl_max {l : List Nat} {x : Nat} (h : x ∈ l) : x ≤ l.foldl max 0 := by
  induction l with
  | nil => cases h
  | cons y ys ih =>
    rw [List.foldl_cons, foldl_max_init]
    rcases List.mem_cons.mp h with rfl | h2
    · omega
    · have := ih h2; omega

theorem foldl_max_mem {l : List Nat} (h : l ≠ []) : l.foldl max 0 ∈ l := by
  induction l with
  | nil => exact absurd rfl h
  | cons y ys ih =>
    rw [List.foldl_cons, foldl_max_init]
    rcases eq_or_ne ys [] with rfl | hne
    · simp
    · have hmem := ih hne
      rcases le_total (ys.foldl max 0) y with hle | hle
      · have hy : max (max 0 y) (ys.foldl max 0) = y := by omega
        rw [hy]
        exact List.mem_cons_self y ys
      · have hy : max (max 0 y) (ys.foldl max 0) = ys.foldl max 0 := by omega
        rw [hy]
        exact List.mem_cons_of_mem y hmem

/-- C8: `column_width(c)` is the supremum of the cell widths at position c
over the data rows: every row's cell width at c is bounded by it; on a
nonempty table it is attained by some row; with zero data rows it is 0; and a
row with no cell at position c contributes the width 0. -/
theorem c8_col_width (t : Table) (c : Nat) :
    (∀ r ∈ t.rows, r.cell_width c ≤ t.col_width c)
    ∧ (t.rows ≠ [] → ∃ r ∈ t.rows, t.col_width c = r.cell_width c)
    ∧ (t.rows = [] → t.col_width c = 0)
    ∧ (∀ r : Row, r.cells[c]? = none → r.cell_width c = 0) := by
  refine ⟨?_, ?_, ?_, ?_⟩
  · intro r hr
    rw [col_width_eq_foldl]
    exact le_foldl_max (List.mem_map_of_mem _ hr)
  · intro hne
    rw [col_width_eq_foldl]
    have hm : (t.rows.map fun r => r.cell_width c) ≠ [] := by simpa using hne
    obtain ⟨r, hr, heq⟩ := List.mem_map.mp (foldl_max_mem hm)
    exact ⟨r, hr, heq.symm⟩
  · intro h
    rw [col_width_eq_foldl, h]
    rfl
  · intro r h
    unfold Row.cell_width
    rw [h]

theorem mapM_option_eq_some_map {α β : Type} (f : α → Option β) (g : α → β)
    (l : List α) (h : ∀ a ∈ l, f a = some (g a)) :
    l.mapM f = some (l.map g) := by
  induction l with
  | nil => rfl
  | cons a as ih =>
    rw [List.mapM_cons, h a (List.mem_cons_self a as),
      ih (fun b hb => h b (List.mem_cons_of_mem a hb))]
    rfl

theorem mapM_option_isSome {α β : Type} (f : α → Option β) (l : List α) :
    (l.mapM f).isSome = true ↔ ∀ a ∈ l, (f a).isSome = true := by
  induction l with
  | nil =>
    constructor
    · intro _ a ha; cases ha
    · intro _; rfl
  | cons a as ih =>
    rw [List.mapM_cons]
    cases hf : f a with
    | none => simp [hf]
    | some b =>
      cases hm : as.mapM f with
      | none =>
        rw [hm] at ih
        simp only [Option.isSome_none, Bool.false_eq_true, false_iff] at ih
        push_neg at ih
        obtain ⟨x, hx, hfx⟩ := ih
        have hfx2 : f x = none := by
          cases hxx : f x
          · rfl
          · rw [hxx] at hfx; simp at hfx
        simp [hf, hm]
        exact ⟨x, hx, hfx2⟩
      | some bs =>
        rw [hm] at ih
        simp only [Option.isSome_some, true_iff] at ih
        simpa [hf, hm] using ih

/-- C10: the width functions index the header's cell sequence without a bounds
check: `col_width2 c _ _ _` succeeds (does not panic) exactly when
`c < header.num_cols()`, and `sum_colwidth2`, which takes `col_width2` over
every `c` in `0..num_cols`, succeeds exactly when
`header.num_cols() >= num_cols` — the invariant `fix_header_names`
re-establishes, not one an arbitrary mid-load Table enjoys. -/
theorem c10_width_totality (t : Table) (m p h : Nat) :
    (∀ c, (t.col_width2 c m p h).isSome = true ↔ c < t.header.num_cols)
    ∧ ((t.sum_colwidth2 m p h).isSome = true ↔ t.num_cols ≤ t.header.num_cols) := by
  have hcol : ∀ c, (t.col_width2 c m p h).isSome = true ↔ c < t.header.cells.length := by
    intro c
    cases hc : t.header.cells[c]? with
    | none =>
      have hlen := List.getElem?_eq_none_iff.mp hc
      simp [Table.col_width2, hc]
      omega
    | some cell =>
      have hlen : c < t.header.cells.length := by
        by_contra hge
        rw [List.getElem?_eq_none (by omega)] at hc
        cases hc
      simp [Table.col_width2, hc, hlen]
  constructor
  · exact hcol
  · unfold Table.sum_colwidth2
    rw [Option.isSome_map', mapM_option_isSome]
    constructor
    · intro hall
      by_contra hgt
      push_neg at hgt
      have hmem : t.header.cells.length ∈ List.range t.num_cols :=
        List.mem_range.mpr hgt
      have := (hcol _).mp (hall _ hmem)
      omega
    · intro hle c hc
      rw [hcol]
      have := List.mem_range.mp hc
      unfold Row.num_cols at hle
      omega

/-- C5: on a loaded Table, for every data column c in `0..num_cols` and all
parameter values, `col_width2` (display_width) computes exactly
`max(max(column_width(c), m) + p, header_cell_length(c) + h)`, hence is at
least `column_width(c) + p` and at least `header_cell_length(c) + h`; and
`sum_colwidth2` (total_width) is the sum of exactly that display width over
all columns `0..num_cols`. -/
theorem c5_display_width (lines : List Str) (t : Table)
    (hload : Table.load_lines lines = some t) (c m p h : Nat) (hc : c < t.num_cols) :
    ∃ hd : Cell, t.header.cells[c]? = some hd
      ∧ t.col_width2 c m p h = some (max (max (t.col_width c) m + p) (hd.len + h))
      ∧ t.col_width c + p ≤ max (max (t.col_width c) m + p) (hd.len + h)
      ∧ hd.len + h ≤ max (max (t.col_width c) m + p) (hd.len + h)
      ∧ t.sum_colwidth2 m p h
          = some (((List.range t.num_cols).map
              (fun c2 => max (max (t.col_width c2) m + p)
                ((t.header.cells.getD c2 { value := [] }).len + h))).sum) := by
  have hlen := load_lines_header_len hload
  have hc2 : c < t.header.cells.length := by omega
  refine ⟨t.header.cells[c], List.getElem?_eq_getElem hc2, ?_, by omega, by omega, ?_⟩
  · unfold Table.col_width2
    rw [List.getElem?_eq_getElem hc2]
  · have hall : ∀ a ∈ List.range t.num_cols,
        t.col_width2 a m p h = some (max (max (t.col_width a) m + p)
          ((t.header.cells.getD a { value := [] }).len + h)) := by
      intro a ha
      have ha2 : a < t.header.cells.length := by
        have := List.mem_range.mp ha
        omega
      have hga : t.header.cells[a]? = some (t.header.cells.getD a { value := [] }) := by
        rw [List.getD_eq_getElem?_getD, List.getElem?_eq_getElem ha2]
        rfl
      unfold Table.col_width2
      rw [hga]
    unfold Table.sum_colwidth2
    rw [mapM_option_eq_some_map _ _ _ hall]
    rfl

/-- C6: `from_filepath` returns a FileError carrying the requested path and
the underlying cause exactly when the file cannot be opened; in that case the
result is the error (no Table), and the rendered message contains the
requested path as a contiguous segment. When the file opens, the load never
returns an error, whatever the content (it either produces a Table or, per
C1/C3, panics — there is no malformed-content error). -/
theorem c6_file_access (fs : Str → Except Str (List Str)) (path : Str) :
    (∀ why, fs path = .error why →
        Table.from_filepath fs path = .err (.FileError path why)
        ∧ ∃ pre suf : Str,
            (Error.FileError path why).get_message = some (pre ++ path ++ suf))
    ∧ (∀ lines, fs path = .ok lines → ∀ e, Table.from_filepath fs path ≠ .err e)
    ∧ (∀ e, Table.from_filepath fs path = .err e →
        ∃ why, fs path = .error why ∧ e = .FileError path why) := by
  refine ⟨?_, ?_, ?_⟩
  · intro why hw
    constructor
    · unfold Table.from_filepath
      rw [hw]
    · exact ⟨"could not open '".data, "': ".data ++ why, by simp [Error.get_message]⟩
  · intro lines hl e
    unfold Table.from_filepath
    rw [hl]
    cases hload : Table.load_lines lines with
    | none => simp [hload]
    | some t2 => simp [hload]
  · intro e he
    unfold Table.from_filepath at he
    cases hfs : fs path with
    | error why =>
      rw [hfs] at he
      cases he
      exact ⟨why, rfl, rfl⟩
    | ok lines =>
      rw [hfs] at he
      cases hload : Table.load_lines lines with
      | some t2 => simp [hload] at he
      | none => simp [hload] at he

/-! ## Sorting by the row-identity column -/

theorem intCompare_eq_lt {a b : Int} : intCompare a b = .lt ↔ a < b := by
  unfold intCompare
  split_ifs with h1 h2 <;> simp_all

theorem intCompare_ne_gt {a b : Int} : intCompare a b ≠ .gt ↔ a ≤ b := by
  unfold intCompare
  split_ifs with h1 h2 <;> simp_all <;> omega

theorem row_cmp_rowid_lt (a b : Row) : a.cmp b .RowId = some .lt ↔ a.rowid < b.rowid := by
  unfold Row.cmp
  rw [Option.some_inj]
  exact intCompare_eq_lt

theorem row_cmp_rowid_ne_gt (a b : Row) :
    a.cmp b .RowId ≠ some .gt ↔ a.rowid ≤ b.rowid := by
  unfold Row.cmp
  rw [← intCompare_ne_gt]
  constructor
  · intro h he
    exact h (by rw [he])
  · intro h he
    exact h (Option.some_inj.mp he)

theorem perm_sorted_unique :
    ∀ l₁ l₂ : List Row, l₁.Perm l₂ →
      l₂.Pairwise (fun a b => a.rowid < b.rowid) →
      l₁.Pairwise (fun a b => a.rowid ≤ b.rowid) → l₁ = l₂ := by
  intro l₁
  induction l₁ with
  | nil =>
    intro l₂ hp _ _
    exact (hp.nil_eq).symm ▸ rfl
  | cons a l₁t ih =>
    intro l₂ hp h₂ h₁
    cases l₂ with
    | nil => exact absurd hp.symm.nil_eq (by simp)
    | cons b l₂t =>
      rcases eq_or_ne a b with rfl | hab
      · have hperm := hp.cons_inv
        rw [ih l₂t hperm (List.pairwise_cons.mp h₂).2 (List.pairwise_cons.mp h₁).2]
      · exfalso
        have ha2 : a ∈ b :: l₂t := hp.subset (List.mem_cons_self a l₁t)
        have ha2t : a ∈ l₂t := by
          rcases List.mem_cons.mp ha2 with h | h
          · exact absurd h hab
          · exact h
        have hba : b.rowid < a.rowid := (List.pairwise_cons.mp h₂).1 a ha2t
        have hb1 : b ∈ a :: l₁t := hp.symm.subset (List.mem_cons_self b l₂t)
        have hb1t : b ∈ l₁t := by
          rcases List.mem_cons.mp hb1 with h | h
          · exact absurd h.symm hab
          · exact h
        have hab2 : a.rowid ≤ b.rowid := (List.pairwise_cons.mp h₁).1 b hb1t
        omega

/-- C7: a loaded Table's data rows carry `row_id == i` at every index i
(0-based, contiguous, in insertion order), the rows are strictly increasing
under the adapter's row-identity comparison, and consequently any
rearrangement of the rows that the comparator accepts as sorted is exactly
the original insertion order. -/
theorem c7_row_ids (lines : List Str) (t : Table)
    (hload : Table.load_lines lines = some t) :
    (∀ (i : Nat) (r : Row), t.rows[i]? = some r → r.rowid = (i : Int))
    ∧ t.rows.Pairwise (fun a b => a.cmp b .RowId = some .lt)
    ∧ (∀ l : List Row, l.Perm t.rows →
        l.Pairwise (fun a b => a.cmp b .RowId ≠ some .gt) → l = t.rows) := by
  have hid := load_lines_rowids hload
  have hpair : t.rows.Pairwise (fun a b => a.cmp b .RowId = some .lt) := by
    rw [List.pairwise_iff_getElem]
    intro i j hi hj hij
    rw [row_cmp_rowid_lt]
    rw [hid i (t.rows[i]) (List.getElem?_eq_getElem hi),
      hid j (t.rows[j]) (List.getElem?_eq_getElem hj)]
    omega
  refine ⟨hid, hpair, ?_⟩
  intro l hperm hsorted
  apply perm_sorted_unique l t.rows hperm
  · exact hpair.imp (fun hab => (row_cmp_rowid_lt _ _).mp hab)
  · exact hsorted.imp (fun hab => (row_cmp_rowid_ne_gt _ _).mp hab)

/-- C9: for every data row of a loaded Table, `to_column` (field_value) on
the row-identity column is the row's sequential id rendered as decimal text;
on a data column it is the cell's text when the row has a cell at that
position and the literal placeholder `<NULL>` otherwise — for every position
c, including `c >= num_cols`, as a total function (no panic). -/
theorem c9_field_value (lines : List Str) (t : Table)
    (hload : Table.load_lines lines = some t) :
    ∀ (i : Nat) (r : Row), t.rows[i]? = some r →
      r.to_column .RowId = (toString (i : Int)).data
      ∧ (∀ c : Nat, c < r.cells.length →
          ∃ cell, r.cells[c]? = some cell ∧ r.to_column (.ColumnPos c) = cell.value)
      ∧ (∀ c : Nat, r.cells.length ≤ c → r.to_column (.ColumnPos c) = "<NULL>".data) := by
  intro i r hir
  have hid := load_lines_rowids hload i r hir
  refine ⟨?_, ?_, ?_⟩
  · simp [Row.to_column, hid]
  · intro c hc
    refine ⟨r.cells[c], List.getElem?_eq_getElem hc, ?_⟩
    simp only [Row.to_column, Row.try_get]
    rw [List.getElem?_eq_getElem hc]
  · intro c hc
    simp only [Row.to_column, Row.try_get]
    rw [List.getElem?_eq_none hc]

/-! ## Concrete witnesses -/

theorem c5_witness : (tEx.col_width2 0 6 2 6).isSome = true := by
  obtain ⟨hd, _, heq, _, _, _⟩ :=
    c5_display_width ["a,b".data, "1,2".data] tEx (by rfl) 0 6 2 6 (by decide)
  rw [heq]
  rfl

theorem c7_witness :
    tA.rows.Pairwise (fun a b => a.cmp b .RowId = some Ordering.lt) :=
  (c7_row_ids ["a,b".data, "1,2".data, "3".data] tA (by rfl)).2.1

theorem c9_witness :
    Row.to_column { cells := [{ value := ['1'] }, { value := ['2'] }], rowid := 0 } .RowId
      = (toString (0 : Int)).data
    ∧ Row.to_column { cells := [{ value := ['3'] }], rowid := 1 } (.ColumnPos 1)
      = "<NULL>".data := by
  have h := c9_field_value ["a,b".data, "1,2".data, "3".data] tA (by rfl)
  exact ⟨(h 0 { cells := [{ value := ['1'] }, { value := ['2'] }], rowid := 0 } (by rfl)).1,
    (h 1 { cells := [{ value := ['3'] }], rowid := 1 } (by rfl)).2.2 1 (by decide)⟩

end CsvEditor
